import Mathlib

/-!
Verification of the w3cli orchestration core (src/index.js).

The four behaviours under study are shallowly embedded:
* the cursor pagination loop of `list` (src/index.js lines 165-183),
* the bulk shard removal of `remove` (src/index.js lines 189-237),
* the usage traversal `getSpaceUsageReports` / `usageReport`
  (src/index.js lines 517-574),
* the archive export loop of `createDelegation` (src/index.js lines 361-371).

Network responses are modelled as explicit scripts (a list of pages the
server would return to successive fetches, oracle functions for per-shard
or per-space call results), and every observable effect of the code —
items processed, lines printed, calls issued, exit code, writer state —
is returned as data so that the theorems can speak about it.
-/

namespace W3

/-- A page of an upload listing: the `results` and `cursor` fields of the
`UploadListSuccess` response consumed by `list` in src/index.js. -/
structure Page (α : Type) where
  results : List α
  cursor : Option String
deriving Repr, DecidableEq

/-- Everything observable about one run of the `list` pagination loop:
the items of the pages fetched in order (`processed`), the final `count`,
the batches printed by `console.log(uploadListResponseToString ...)`
(`printedBatches`, one entry per fetched page with non-empty results),
the cursor argument passed to each fetch in order (`cursorsUsed`), and
the number of fetches performed (`fetches`). -/
structure ListOutcome (α : Type) where
  processed : List α
  count : Nat
  printedBatches : List (List α)
  cursorsUsed : List (Option String)
  fetches : Nat
deriving Repr, DecidableEq

/-- The loop-continuation test of `list`:
`while (res.cursor && res.results.length)` in src/index.js line 177. -/
def continueB {α : Type} (p : Page α) : Bool :=
  p.cursor.isSome && !p.results.isEmpty

/-- The do/while pagination loop of `list`, run against a server script:
`pages` are the responses the server returns to successive fetches, and
`prev` is the cursor of the previous response (`res?.cursor`), passed to
the current fetch.  Each iteration fetches one page, adds
`res.results.length` to the count, prints the page when its results are
non-empty, and continues exactly when `continueB` holds of the page.
An empty script means the server has no further response; the claims
below only use scripts long enough for the loop to stop by itself. -/
def listGo {α : Type} (prev : Option String) : List (Page α) → ListOutcome α
  | [] => ⟨[], 0, [], [], 0⟩
  | p :: rest =>
    if continueB p then
      let o := listGo p.cursor rest
      ⟨p.results ++ o.processed, p.results.length + o.count,
        if p.results.isEmpty then o.printedBatches else p.results :: o.printedBatches,
        prev :: o.cursorsUsed, o.fetches + 1⟩
    else
      ⟨p.results, p.results.length,
        if p.results.isEmpty then [] else [p.results],
        [prev], 1⟩

/-- The `list` pagination loop started as the code starts it: the first
fetch passes `res?.cursor` with `res` still undefined. -/
def listRun {α : Type} (pages : List (Page α)) : ListOutcome α :=
  listGo none pages

/-- One line of output of the `list` command: either a printed batch of
upload records, or one of the two notice lines printed when the space has
no uploads and `--json` is not set. -/
inductive OutLine (α : Type) where
  | records (batch : List α)
  | noUploadsNotice
  | tryUploadNotice
deriving Repr, DecidableEq

/-- The full output of the `list` command (src/index.js lines 165-183):
the batches printed inside the loop, followed by the two "No uploads"
notice lines exactly when the final count is zero and `--json` is unset. -/
def list {α : Type} (pages : List (Page α)) (json : Bool) : List (OutLine α) :=
  let o := listRun pages
  o.printedBatches.map OutLine.records ++
    (if o.count == 0 && !json then
      [OutLine.noUploadsNotice, OutLine.tryUploadNotice]
     else [])

/-- The upload record returned by `client.capability.upload.remove`:
`remove` in src/index.js inspects its `root` and its (possibly missing)
`shards` list.  CIDs are abstracted as naturals. -/
structure UploadRecord where
  root : Option Nat
  shards : Option (List Nat)
deriving Repr, DecidableEq

/-- The messages `remove` prints on its various paths. -/
inductive RemoveMsg where
  | removeFailed
  | uploadNotFound
  | noShards
  | removingShards (n : Nat)
deriving Repr, DecidableEq

/-- Everything observable about one run of `remove`: the shards for which
a removal request was issued (`shardRequests`), the settled outcome of
each request in input order (`outcomes`, second component true on
success), the process exit code, and the messages printed. -/
structure RemoveOutput where
  shardRequests : List Nat
  outcomes : List (Nat × Bool)
  exitCode : Nat
  messages : List RemoveMsg
deriving Repr, DecidableEq

/-- The `remove` command (src/index.js lines 189-237), after CID parsing:
`uploadRes` is the result of `client.capability.upload.remove(root)` and
`shardOk` tells whether the store removal of a given shard succeeds.
Without `--shards` the function returns after the upload-record removal.
With `--shards`, a missing `root` or a missing/empty `shards` list prints
a notice and returns; otherwise one request per shard is issued, all are
awaited via `Promise.allSettled` (every shard settles to exactly one
outcome), and the process exits 1 exactly when some request rejected. -/
def remove (shardsFlag : Bool) (uploadRes : Except String UploadRecord)
    (shardOk : Nat → Bool) : RemoveOutput :=
  match uploadRes with
  | .error _ => ⟨[], [], 1, [RemoveMsg.removeFailed]⟩
  | .ok upload =>
    if !shardsFlag then ⟨[], [], 0, []⟩
    else
      match upload.root with
      | none => ⟨[], [], 0, [RemoveMsg.uploadNotFound]⟩
      | some _ =>
        match upload.shards with
        | none => ⟨[], [], 0, [RemoveMsg.noShards]⟩
        | some [] => ⟨[], [], 0, [RemoveMsg.noShards]⟩
        | some (s₀ :: srest) =>
          let shards := s₀ :: srest
          let outcomes := shards.map fun s => (s, shardOk s)
          ⟨shards, outcomes,
            if outcomes.any (fun o => !o.2) then 1 else 0,
            [RemoveMsg.removingShards shards.length]⟩

/-- A content-addressed block of a delegation's export form. -/
structure CarBlock where
  cid : Nat
  bytes : List Nat
deriving Repr, DecidableEq

/-- One operation performed on the CAR writer of `createDelegation`. -/
inductive WOp where
  | put (b : CarBlock)
  | close
deriving Repr, DecidableEq

/-- Everything observable about the writer in one run of the export loop
of `createDelegation`: the operations performed on the writer in order,
whether `writer.close()` was awaited, and the error, if any, that
propagated out of the function. -/
structure DelegRun where
  ops : List WOp
  closed : Bool
  err : Option String
deriving Repr, DecidableEq

/-- The write loop of `createDelegation` (src/index.js lines 366-369):
each block of `delegation.export()` is put into the writer in order, each
put awaited before the next starts; a rejected put throws out of the
loop, so no further put is attempted.  Returns the puts performed and
the first error, if any. -/
def writeBlocks (putRes : CarBlock → Except String Unit) :
    List CarBlock → List WOp × Option String
  | [] => ([], none)
  | b :: rest =>
    match putRes b with
    | .error e => ([WOp.put b], some e)
    | .ok _ =>
      match writeBlocks putRes rest with
      | (ops, e) => (WOp.put b :: ops, e)

/-- The export portion of `createDelegation` (src/index.js lines
361-371): the blocks are written sequentially, and `await writer.close()`
runs only when every put succeeded — the function has no try/finally, so
an error thrown by a put propagates with the writer left open. -/
def createDelegation (putRes : CarBlock → Except String Unit)
    (blocks : List CarBlock) : DelegRun :=
  match writeBlocks putRes blocks with
  | (ops, some e) => ⟨ops, false, some e⟩
  | (ops, none) => ⟨ops ++ [WOp.close], true, none⟩

/-- The reporting period built by `usageReport`: passed through to the
service unmodified; timestamps abstracted as naturals. -/
structure Period where
  fromTime : Nat
  toTime : Nat
deriving Repr, DecidableEq

/-- One record of a space's usage report as returned by
`client.capability.usage.report`: the fields `getSpaceUsageReports`
spreads into its yielded value.  `sizeFinal` is `size.final`. -/
structure UsageRecordR where
  provider : String
  space : String
  sizeFinal : Nat
deriving Repr, DecidableEq

/-- A record yielded by `getSpaceUsageReports`:
`{ account: account.did(), ...report }`. -/
structure TaggedRecord where
  account : String
  provider : String
  space : String
  sizeFinal : Nat
deriving Repr, DecidableEq

/-- `yield { account: account.did(), ...report }` in src/index.js line 569. -/
def tagRecord (a : String) (r : UsageRecordR) : TaggedRecord :=
  ⟨a, r.provider, r.space, r.sizeFinal⟩

/-- The slice of the w3up client consumed by the usage traversal:
the account DIDs of `client.accounts()`, the result of
`client.capability.subscription.list(accountDid)` (each subscription
entry reduced to its `consumers` list of space DIDs), and the result of
`client.capability.usage.report(space, period)` (its records, in entry
order).  Either call may fail, which in the code throws. -/
structure UsageClient where
  accounts : List String
  subs : String → Except String (List (List String))
  report : String → Period → Except String (List UsageRecordR)

/-- One network call issued by the usage traversal. -/
inductive UsageCall where
  | subsCall (account : String)
  | reportCall (space : String)
deriving Repr, DecidableEq

/-- Innermost level of `getSpaceUsageReports`: for each consumer space of
one subscription entry, await the usage report and yield each of its
records tagged with the account.  Returns the yielded records (or the
propagated error) together with the trace of calls issued, in order; a
failing call ends the trace. -/
def reportSpaces (c : UsageClient) (p : Period) (a : String) :
    List String → Except String (List TaggedRecord) × List UsageCall
  | [] => (.ok [], [])
  | s :: rest =>
    match c.report s p with
    | .error e => (.error e, [UsageCall.reportCall s])
    | .ok recs =>
      match reportSpaces c p a rest with
      | (.error e, t) => (.error e, UsageCall.reportCall s :: t)
      | (.ok l, t) => (.ok (recs.map (tagRecord a) ++ l), UsageCall.reportCall s :: t)

/-- Middle level of `getSpaceUsageReports`: iterate the subscription
entries (`for (const { consumers } of subscriptions.results)`) of one
account. -/
def reportEntries (c : UsageClient) (p : Period) (a : String) :
    List (List String) → Except String (List TaggedRecord) × List UsageCall
  | [] => (.ok [], [])
  | cons :: rest =>
    match reportSpaces c p a cons with
    | (.error e, t) => (.error e, t)
    | (.ok l, t) =>
      match reportEntries c p a rest with
      | (.error e, t₂) => (.error e, t ++ t₂)
      | (.ok l₂, t₂) => (.ok (l ++ l₂), t ++ t₂)

/-- Outer level of `getSpaceUsageReports`: for each account, await its
subscription list, then walk its entries; a failing subscription fetch
propagates at once. -/
def reportAccounts (c : UsageClient) (p : Period) :
    List String → Except String (List TaggedRecord) × List UsageCall
  | [] => (.ok [], [])
  | a :: rest =>
    match c.subs a with
    | .error e => (.error e, [UsageCall.subsCall a])
    | .ok entries =>
      match reportEntries c p a entries with
      | (.error e, t) => (.error e, UsageCall.subsCall a :: t)
      | (.ok l, t) =>
        match reportAccounts c p rest with
        | (.error e, t₂) => (.error e, UsageCall.subsCall a :: (t ++ t₂))
        | (.ok l₂, t₂) => (.ok (l ++ l₂), UsageCall.subsCall a :: (t ++ t₂))

/-- The async generator `getSpaceUsageReports` (src/index.js lines
560-574), run to completion: the sequence of records it yields (or the
error that aborts it) plus the trace of service calls it awaited. -/
def getSpaceUsageReports (c : UsageClient) (p : Period) :
    Except String (List TaggedRecord) × List UsageCall :=
  reportAccounts c p c.accounts

/-- The running total accumulated by `usageReport` (src/index.js line
549): `total += size.final` over every yielded record, starting at 0;
the traversal's error, if any, propagates. -/
def usageReport (c : UsageClient) (p : Period) : Except String Nat :=
  match (getSpaceUsageReports c p).1 with
  | .error e => .error e
  | .ok recs => .ok (recs.foldl (fun t r => t + r.sizeFinal) 0)

/-- Whether a traced call is the one whose service result is the error
`e` for this client and period. -/
def callFails (c : UsageClient) (p : Period) (e : String) : UsageCall → Prop
  | UsageCall.subsCall a => c.subs a = .error e
  | UsageCall.reportCall s => c.report s p = .error e

/-! ## Pagination lemmas and claims -/

theorem listGo_fetches_takeWhile {α : Type} (pages : List (Page α)) :
    ∀ prev : Option String, (∃ p ∈ pages, continueB p = false) →
      (listGo prev pages).fetches = (pages.takeWhile continueB).length + 1 := by
  induction pages with
  | nil =>
    intro prev h
    rcases h with ⟨p, hp, _⟩
    cases hp
  | cons p rest ih =>
    intro prev h
    by_cases hc : continueB p = true
    · have hrest : ∃ q ∈ rest, continueB q = false := by
        rcases h with ⟨q, hq, hqf⟩
        rcases List.mem_cons.mp hq with rfl | hq'
        · rw [hc] at hqf; cases hqf
        · exact ⟨q, hq', hqf⟩
      simp [listGo, hc, List.takeWhile_cons, ih p.cursor hrest]
    · simp [listGo, hc, List.takeWhile_cons]

/-- C1: the spec's iteration predicate for the `list` pagination loop is
`(cursor defined) OR (page had items)`, but the loop in src/index.js
line 177 continues only while `(cursor defined) AND (page had items)`.
Amended claim, proved here: the loop fetches at least once and continues
exactly while the returned page has both a defined cursor and a
non-empty items list, stopping the moment a fetch returns an undefined
cursor or an empty items list — so it fetches exactly one page past the
longest prefix of continuing pages. -/
theorem c1_pagination_predicate {α : Type} (pages : List (Page α))
    (hstop : ∃ p ∈ pages, continueB p = false) :
    1 ≤ (listRun pages).fetches ∧
      (listRun pages).fetches = (pages.takeWhile continueB).length + 1 := by
  have h := listGo_fetches_takeWhile pages none hstop
  exact ⟨by rw [listRun, h]; omega, by rw [listRun, h]⟩

theorem c1_pagination_predicate_witness :
    1 ≤ (listRun ([⟨[3], some "a"⟩, ⟨[], none⟩] : List (Page Nat))).fetches ∧
      (listRun ([⟨[3], some "a"⟩, ⟨[], none⟩] : List (Page Nat))).fetches
        = (([⟨[3], some "a"⟩, ⟨[], none⟩] : List (Page Nat)).takeWhile continueB).length + 1 :=
  c1_pagination_predicate _ ⟨⟨[], none⟩, by decide, by decide⟩

/-- C1 counterexample: the first page has empty items but a defined
cursor, and a further page is available; the claim says iteration must
continue (a second fetch, yielding `[5]`), but the loop stops after one
fetch having processed nothing. -/
theorem c1_counterexample :
    (listRun ([⟨[], some "c"⟩, ⟨[5], none⟩] : List (Page Nat))).fetches = 1 ∧
      (listRun ([⟨[], some "c"⟩, ⟨[5], none⟩] : List (Page Nat))).processed = [] := by
  decide

theorem listGo_append_last {α : Type} (pre : List (Page α)) (lastPage : Page α)
    (hlast : lastPage.cursor = none) :
    ∀ prev : Option String, (∀ p ∈ pre, continueB p = true) →
      (listGo prev (pre ++ [lastPage])).processed
          = ((pre ++ [lastPage]).map Page.results).flatten ∧
        (listGo prev (pre ++ [lastPage])).fetches = pre.length + 1 ∧
        (listGo prev (pre ++ [lastPage])).cursorsUsed = prev :: pre.map Page.cursor := by
  induction pre with
  | nil =>
    intro prev _
    have hc : continueB lastPage = false := by simp [continueB, hlast]
    simp [listGo, hc]
  | cons p rest ih =>
    intro prev hall
    have hp : continueB p = true := hall p (List.mem_cons_self p rest)
    have hrest := ih p.cursor (fun q hq => hall q (List.mem_cons_of_mem p hq))
    simp [listGo, hp, hrest.1, hrest.2.1, hrest.2.2]

/-- C2: the claim holds only for page sequences in which every page
before the last satisfies the loop's continuation test (defined cursor
AND non-empty items): then the loop terminates after fetching each page
exactly once, processes exactly the concatenation of all pages' items in
server order, and each fetch passes exactly the cursor of the
immediately preceding response (the first fetch passes none).  (The
unamended claim fails when an earlier page has empty items, see the
counterexample.) -/
theorem c2_pagination_concat {α : Type} (pre : List (Page α)) (lastPage : Page α)
    (hlast : lastPage.cursor = none) (hpre : ∀ p ∈ pre, continueB p = true) :
    (listRun (pre ++ [lastPage])).processed = ((pre ++ [lastPage]).map Page.results).flatten ∧
      (listRun (pre ++ [lastPage])).fetches = (pre ++ [lastPage]).length ∧
      (listRun (pre ++ [lastPage])).cursorsUsed = none :: pre.map Page.cursor := by
  have h := listGo_append_last pre lastPage hlast none hpre
  refine ⟨h.1, ?_, h.2.2⟩
  rw [listRun] at *
  rw [h.2.1]
  simp

theorem c2_pagination_concat_witness :
    (listRun ([⟨[1], some "a"⟩] ++ [⟨[2], none⟩] : List (Page Nat))).processed
        = (([⟨[1], some "a"⟩] ++ [⟨[2], none⟩] : List (Page Nat)).map Page.results).flatten ∧
      (listRun ([⟨[1], some "a"⟩] ++ [⟨[2], none⟩] : List (Page Nat))).fetches
        = (([⟨[1], some "a"⟩] ++ [⟨[2], none⟩] : List (Page Nat))).length ∧
      (listRun ([⟨[1], some "a"⟩] ++ [⟨[2], none⟩] : List (Page Nat))).cursorsUsed
        = none :: ([⟨[1], some "a"⟩] : List (Page Nat)).map Page.cursor :=
  c2_pagination_concat [⟨[1], some "a"⟩] ⟨[2], none⟩ rfl (by decide)

/-- C2 counterexample: the last page carries an undefined cursor, but an
earlier page has empty items with a defined cursor; the loop stops there
and the processed items are not the concatenation of all pages' items. -/
theorem c2_counterexample :
    (listRun ([⟨[], some "x"⟩, ⟨[7], none⟩] : List (Page Nat))).processed
      ≠ (([⟨[], some "x"⟩, ⟨[7], none⟩] : List (Page Nat)).map Page.results).flatten := by
  decide

/-- C9: listing a space with zero uploads — the first fetched page has no
results, so the loop stops at once with a count of zero: no record batch
is printed, and the two "No uploads" notice lines appear exactly when
`--json` is not set; with `--json` the command prints nothing at all. -/
theorem c9_zero_uploads {α : Type} (cur : Option String) (rest : List (Page α)) (json : Bool) :
    list (⟨[], cur⟩ :: rest) json
      = if json then [] else [OutLine.noUploadsNotice, OutLine.tryUploadNotice] := by
  have hc : continueB (⟨[], cur⟩ : Page α) = false := by simp [continueB]
  cases json <;> simp [list, listRun, listGo, hc]

/-! ## Bulk shard removal claims -/

/-- C3: with `--shards`, after a successful upload-record removal with a
present shard list, `remove` issues one store-removal request per shard
and settles them all with `Promise.allSettled`: the outcome list pairs
each requested shard, in input order, with its own result only (no other
shard's outcome affects it, no short-circuit), and the process exits 1
exactly when at least one shard removal failed, 0 exactly on full
success. -/
theorem c3_bulk_removal (shardOk : Nat → Bool) (u : UploadRecord) (r : Nat) (l : List Nat)
    (hroot : u.root = some r) (hsh : u.shards = some l) :
    (remove true (.ok u) shardOk).outcomes = l.map (fun s => (s, shardOk s)) ∧
      ((remove true (.ok u) shardOk).exitCode = 1 ↔ ∃ s ∈ l, shardOk s = false) ∧
      ((remove true (.ok u) shardOk).exitCode = 0 ↔ ∀ s ∈ l, shardOk s = true) := by
  cases u with
  | mk root shards =>
    simp only at hroot hsh
    subst hroot
    subst hsh
    cases l with
    | nil => simp [remove]
    | cons s₀ srest =>
      have hif : ∀ b : Bool, ((if b = true then (1 : Nat) else 0) = 1 ↔ b = true) ∧
          ((if b = true then (1 : Nat) else 0) = 0 ↔ b = false) := by decide
      refine ⟨by simp [remove], ?_, ?_⟩
      · rw [show (remove true (.ok ⟨some r, some (s₀ :: srest)⟩) shardOk).exitCode
            = if (((s₀ :: srest).map fun s => (s, shardOk s)).any fun o => !o.2) = true
              then 1 else 0 from rfl]
        rw [(hif _).1]
        simp [List.any_map, Function.comp]
      · rw [show (remove true (.ok ⟨some r, some (s₀ :: srest)⟩) shardOk).exitCode
            = if (((s₀ :: srest).map fun s => (s, shardOk s)).any fun o => !o.2) = true
              then 1 else 0 from rfl]
        rw [(hif _).2]
        simp [List.any_map, Function.comp]

theorem c3_bulk_removal_witness :
    (remove true (.ok ⟨some 9, some [1, 2, 3]⟩) (fun s => decide (s ≠ 2))).outcomes
        = [1, 2, 3].map (fun s => (s, decide (s ≠ 2))) ∧
      ((remove true (.ok ⟨some 9, some [1, 2, 3]⟩) (fun s => decide (s ≠ 2))).exitCode = 1
        ↔ ∃ s ∈ [1, 2, 3], decide (s ≠ 2) = false) ∧
      ((remove true (.ok ⟨some 9, some [1, 2, 3]⟩) (fun s => decide (s ≠ 2))).exitCode = 0
        ↔ ∀ s ∈ [1, 2, 3], decide (s ≠ 2) = true) :=
  c3_bulk_removal (fun s => decide (s ≠ 2)) ⟨some 9, some [1, 2, 3]⟩ 9 [1, 2, 3] rfl rfl

/-- C8: with `--shards`, when the removed upload record carries an empty
shard list, `remove` prints the "no shards to remove" notice and returns
before any store-removal request: no request issued, no outcomes, exit
code 0. -/
theorem c8_empty_shard_set (shardOk : Nat → Bool) (u : UploadRecord) (r : Nat)
    (hroot : u.root = some r) (hsh : u.shards = some []) :
    remove true (.ok u) shardOk = ⟨[], [], 0, [RemoveMsg.noShards]⟩ := by
  cases u with
  | mk root shards =>
    simp only at hroot hsh
    subst hroot
    subst hsh
    simp [remove]

theorem c8_empty_shard_set_witness :
    remove true (.ok ⟨some 1, some []⟩) (fun _ => true) = ⟨[], [], 0, [RemoveMsg.noShards]⟩ :=
  c8_empty_shard_set (fun _ => true) ⟨some 1, some []⟩ 1 rfl rfl

/-- C10: with `--shards`, when the upload-record removal succeeds but the
returned record has no root, or a missing or empty shard list, `remove`
prints one informational message and returns: no store-removal request is
issued and the exit code stays 0 — shard deletion is silently skipped
while the command counts as success. -/
theorem c10_shard_skip (shardOk : Nat → Bool) (u : UploadRecord)
    (h : u.root = none ∨ u.shards = none ∨ u.shards = some []) :
    (remove true (.ok u) shardOk).shardRequests = [] ∧
      (remove true (.ok u) shardOk).exitCode = 0 ∧
      ((remove true (.ok u) shardOk).messages = [RemoveMsg.uploadNotFound] ∨
        (remove true (.ok u) shardOk).messages = [RemoveMsg.noShards]) := by
  cases u with
  | mk root shards =>
    simp only at h
    rcases h with h | h | h
    · subst h
      simp [remove]
    · subst h
      cases root <;> simp [remove]
    · subst h
      cases root <;> simp [remove]

theorem c10_shard_skip_witness :
    (remove true (.ok ⟨none, some [5]⟩) (fun _ => false)).shardRequests = [] ∧
      (remove true (.ok ⟨none, some [5]⟩) (fun _ => false)).exitCode = 0 ∧
      ((remove true (.ok ⟨none, some [5]⟩) (fun _ => false)).messages
          = [RemoveMsg.uploadNotFound] ∨
        (remove true (.ok ⟨none, some [5]⟩) (fun _ => false)).messages
          = [RemoveMsg.noShards]) :=
  c10_shard_skip (fun _ => false) ⟨none, some [5]⟩ (Or.inl rfl)

/-! ## Delegation archive export claims -/

theorem writeBlocks_snd_none (putRes : CarBlock → Except String Unit) (blocks : List CarBlock) :
    (writeBlocks putRes blocks).2 = none ↔ ∀ b ∈ blocks, putRes b = .ok () := by
  induction blocks with
  | nil => simp [writeBlocks]
  | cons b rest ih =>
    cases hb : putRes b with
    | error e => simp [writeBlocks, hb]
    | ok u =>
      cases u
      cases hr : writeBlocks putRes rest with
      | mk ops e =>
        rw [hr] at ih
        simp only [writeBlocks, hb, hr]
        simp only at ih
        simp [List.forall_mem_cons, hb, ih]

/-- A put rejection that makes the export loop of `createDelegation`
throw. -/
def failPut : CarBlock → Except String Unit := fun b =>
  if b.cid = 1 then .error "write failed" else .ok ()

/-- C6 counterexample: when the put of the single block rejects, the
error propagates out of `createDelegation` but `writer.close()` is never
reached — the code has no try/finally, so the writer is not closed on the
failure path, contrary to the claim that it is closed on every exit
path. -/
theorem c6_counterexample :
    (createDelegation failPut [⟨1, [7]⟩]).err = some "write failed" ∧
      (createDelegation failPut [⟨1, [7]⟩]).closed = false := by
  exact ⟨rfl, rfl⟩

/-- C6 amended: the writer is closed exactly on the success path — it is
closed when and only when every block write succeeds; when a put raises,
the error propagates out of `createDelegation` with the writer left
unclosed. -/
theorem c6_writer_close (putRes : CarBlock → Except String Unit) (blocks : List CarBlock) :
    (createDelegation putRes blocks).closed = true ↔ ∀ b ∈ blocks, putRes b = .ok () := by
  have h := writeBlocks_snd_none putRes blocks
  cases hw : writeBlocks putRes blocks with
  | mk ops e =>
    rw [hw] at h
    simp only at h
    cases e with
    | none => simp [createDelegation, hw, ← h]
    | some err => simp [createDelegation, hw, ← h]

theorem c6_writer_close_witness :
    ((createDelegation (fun _ => .ok ()) [⟨2, [3]⟩]).closed = true ↔
      ∀ b ∈ ([⟨2, [3]⟩] : List CarBlock),
        (fun _ => (Except.ok () : Except String Unit)) b = Except.ok ()) :=
  c6_writer_close (fun _ => .ok ()) [⟨2, [3]⟩]

theorem writeBlocks_of_ok (putRes : CarBlock → Except String Unit) (blocks : List CarBlock)
    (h : ∀ b ∈ blocks, putRes b = .ok ()) :
    writeBlocks putRes blocks = (blocks.map WOp.put, none) := by
  induction blocks with
  | nil => rfl
  | cons b rest ih =>
    have hb := h b (List.mem_cons_self b rest)
    have hr := ih (fun x hx => h x (List.mem_cons_of_mem b hx))
    simp [writeBlocks, hb, hr]

/-- C7: when every write succeeds, `createDelegation` performs exactly
one put per block of the export sequence, in the given order, each
awaited before the next begins (the operation list is the puts in block
order), and awaits `writer.close()` only after the last put.  The
operation list — and hence the archive byte stream the writer produces —
is a function of the block sequence alone, so repeated runs on the same
blocks produce identical output. -/
theorem c7_sequential_export (putRes : CarBlock → Except String Unit) (blocks : List CarBlock)
    (h : ∀ b ∈ blocks, putRes b = .ok ()) :
    (createDelegation putRes blocks).ops = blocks.map WOp.put ++ [WOp.close] ∧
      (createDelegation putRes blocks).closed = true := by
  simp [createDelegation, writeBlocks_of_ok putRes blocks h]

theorem c7_sequential_export_witness :
    (createDelegation (fun _ => .ok ()) [⟨1, [1]⟩, ⟨2, [2]⟩]).ops
        = ([⟨1, [1]⟩, ⟨2, [2]⟩] : List CarBlock).map WOp.put ++ [WOp.close] ∧
      (createDelegation (fun _ => .ok ()) [⟨1, [1]⟩, ⟨2, [2]⟩]).closed = true :=
  c7_sequential_export (fun _ => .ok ()) [⟨1, [1]⟩, ⟨2, [2]⟩] (fun _ _ => rfl)

/-! ## Usage traversal lemmas and claims -/

theorem reportSpaces_of_ok (c : UsageClient) (p : Period) (a : String)
    (Rf : String → List UsageRecordR) (spaces : List String)
    (hrep : ∀ s ∈ spaces, c.report s p = .ok (Rf s)) :
    reportSpaces c p a spaces
      = (.ok ((spaces.map fun s => (Rf s).map (tagRecord a)).flatten),
          spaces.map UsageCall.reportCall) := by
  induction spaces with
  | nil => simp [reportSpaces]
  | cons s rest ih =>
    have hs := hrep s (List.mem_cons_self s rest)
    have hr := ih (fun x hx => hrep x (List.mem_cons_of_mem s hx))
    simp [reportSpaces, hs, hr]

theorem reportEntries_of_ok (c : UsageClient) (p : Period) (a : String)
    (Rf : String → List UsageRecordR) (entries : List (List String))
    (hrep : ∀ s, c.report s p = .ok (Rf s)) :
    reportEntries c p a entries
      = (.ok ((entries.map fun spaces =>
            (spaces.map fun s => (Rf s).map (tagRecord a)).flatten).flatten),
          (entries.map fun spaces => spaces.map UsageCall.reportCall).flatten) := by
  induction entries with
  | nil => simp [reportEntries]
  | cons spaces rest ih =>
    have h1 := reportSpaces_of_ok c p a Rf spaces (fun s _ => hrep s)
    simp [reportEntries, h1, ih]

theorem reportAccounts_fst_of_ok (c : UsageClient) (p : Period)
    (Ef : String → List (List String)) (Rf : String → List UsageRecordR)
    (accts : List String)
    (hsubs : ∀ a ∈ accts, c.subs a = .ok (Ef a))
    (hrep : ∀ s, c.report s p = .ok (Rf s)) :
    (reportAccounts c p accts).1
      = .ok ((accts.map fun a =>
          ((Ef a).map fun spaces =>
            (spaces.map fun s => (Rf s).map (tagRecord a)).flatten).flatten).flatten) := by
  induction accts with
  | nil => simp [reportAccounts]
  | cons a rest ih =>
    have ha := hsubs a (List.mem_cons_self a rest)
    have h2 := reportEntries_of_ok c p a Rf (Ef a) hrep
    have hr := ih (fun x hx => hsubs x (List.mem_cons_of_mem a hx))
    cases hrec : reportAccounts c p rest with
    | mk r t =>
      rw [hrec] at hr
      simp only at hr
      subst hr
      simp [reportAccounts, ha, h2, hrec]

theorem length_flatten_const {β : Type} (L : List (List β)) (k : Nat)
    (h : ∀ l ∈ L, l.length = k) : L.flatten.length = L.length * k := by
  induction L with
  | nil => simp
  | cons x rest ih =>
    have hx := h x (List.mem_cons_self x rest)
    have hr := ih (fun y hy => h y (List.mem_cons_of_mem x hy))
    simp only [List.flatten_cons, List.length_append, List.length_cons, hx, hr]
    ring

theorem foldl_add_sizeFinal (recs : List TaggedRecord) :
    ∀ n : Nat,
      recs.foldl (fun t r => t + r.sizeFinal) n = n + (recs.map TaggedRecord.sizeFinal).sum := by
  induction recs with
  | nil => intro n; simp
  | cons r rest ih =>
    intro n
    simp [List.foldl_cons, ih, Nat.add_assoc]

/-- C4: over `N` accounts, each with `M` subscription entries, each
listing `K` consumer spaces whose usage report has `R` records, the
traversal of `getSpaceUsageReports` yields exactly `N*M*K*R` records;
each yielded record is its account's tag applied to a record of the
usage report of its own space field, and the total accumulated by
`usageReport` (`total += size.final`) equals the sum of `size.final`
over all yielded records. -/
theorem c4_usage_aggregation (c : UsageClient) (p : Period)
    (Ef : String → List (List String)) (Rf : String → List UsageRecordR)
    (M K R : Nat)
    (hsubs : ∀ a ∈ c.accounts, c.subs a = .ok (Ef a))
    (hM : ∀ a ∈ c.accounts, (Ef a).length = M)
    (hK : ∀ a ∈ c.accounts, ∀ e ∈ Ef a, e.length = K)
    (hrep : ∀ s, c.report s p = .ok (Rf s))
    (hR : ∀ s, (Rf s).length = R)
    (hspace : ∀ s, ∀ r ∈ Rf s, r.space = s) :
    ∃ recs,
      (getSpaceUsageReports c p).1 = .ok recs ∧
      recs.length = c.accounts.length * (M * (K * R)) ∧
      (∀ t ∈ recs, t.account ∈ c.accounts ∧
        ∃ rec ∈ Rf t.space, tagRecord t.account rec = t) ∧
      usageReport c p = .ok ((recs.map TaggedRecord.sizeFinal).sum) := by
  have hg : (getSpaceUsageReports c p).1
      = .ok ((c.accounts.map fun a =>
          ((Ef a).map fun spaces =>
            (spaces.map fun s => (Rf s).map (tagRecord a)).flatten).flatten).flatten) :=
    reportAccounts_fst_of_ok c p Ef Rf c.accounts hsubs hrep
  refine ⟨_, hg, ?_, ?_, ?_⟩
  · have houter : ∀ l ∈ (c.accounts.map fun a =>
        ((Ef a).map fun spaces =>
          (spaces.map fun s => (Rf s).map (tagRecord a)).flatten).flatten),
        l.length = M * (K * R) := by
      intro l hl
      rcases List.mem_map.mp hl with ⟨a, ha, rfl⟩
      have hinner : ∀ l₂ ∈ (Ef a).map fun spaces =>
          (spaces.map fun s => (Rf s).map (tagRecord a)).flatten, l₂.length = K * R := by
        intro l₂ hl₂
        rcases List.mem_map.mp hl₂ with ⟨spaces, hsp, rfl⟩
        have hlens : ∀ l₃ ∈ spaces.map fun s => (Rf s).map (tagRecord a), l₃.length = R := by
          intro l₃ hl₃
          rcases List.mem_map.mp hl₃ with ⟨s, _, rfl⟩
          simp [hR s]
        have := length_flatten_const _ R hlens
        simpa [hK a ha spaces hsp] using this
      have := length_flatten_const _ (K * R) hinner
      simpa [hM a ha] using this
    have := length_flatten_const _ (M * (K * R)) houter
    simpa using this
  · intro t ht
    rcases List.mem_flatten.mp ht with ⟨lacc, hlacc, htl⟩
    rcases List.mem_map.mp hlacc with ⟨a, ha, rfl⟩
    rcases List.mem_flatten.mp htl with ⟨lent, hlent, htl₂⟩
    rcases List.mem_map.mp hlent with ⟨spaces, _, rfl⟩
    rcases List.mem_flatten.mp htl₂ with ⟨lsp, hlsp, htl₃⟩
    rcases List.mem_map.mp hlsp with ⟨s, _, rfl⟩
    rcases List.mem_map.mp htl₃ with ⟨rec, hrec, rfl⟩
    refine ⟨ha, rec, ?_, rfl⟩
    have hsp : (tagRecord a rec).space = s := by
      simp [tagRecord, hspace s rec hrec]
    rw [hsp]
    exact hrec
  · have : usageReport c p
        = match (getSpaceUsageReports c p).1 with
          | .error e => .error e
          | .ok recs => .ok (recs.foldl (fun t r => t + r.sizeFinal) 0) := rfl
    rw [this, hg]
    simp [foldl_add_sizeFinal]

/-- A one-account, one-subscription, one-space client with a one-record
usage report, used to instantiate the usage-aggregation theorem. -/
def usageClientW : UsageClient where
  accounts := ["acc"]
  subs := fun _ => .ok [["sp"]]
  report := fun s _ => .ok [⟨"prov", s, 7⟩]

theorem c4_usage_aggregation_witness :
    ∃ recs,
      (getSpaceUsageReports usageClientW ⟨0, 1⟩).1 = .ok recs ∧
      recs.length = usageClientW.accounts.length * (1 * (1 * 1)) ∧
      (∀ t ∈ recs, t.account ∈ usageClientW.accounts ∧
        ∃ rec ∈ (fun s => ([⟨"prov", s, 7⟩] : List UsageRecordR)) t.space,
          tagRecord t.account rec = t) ∧
      usageReport usageClientW ⟨0, 1⟩ = .ok ((recs.map TaggedRecord.sizeFinal).sum) :=
  c4_usage_aggregation usageClientW ⟨0, 1⟩ (fun _ => [["sp"]])
    (fun s => [⟨"prov", s, 7⟩]) 1 1 1
    (fun _ _ => rfl) (fun _ _ => rfl)
    (by intro a _ e he; rcases List.mem_singleton.mp he with rfl; rfl)
    (fun _ => rfl) (fun _ => rfl)
    (by intro s r hr; rcases List.mem_singleton.mp hr with rfl; rfl)

theorem reportSpaces_error_last (c : UsageClient) (p : Period) (a : String)
    (spaces : List String) (e : String) :
    (reportSpaces c p a spaces).1 = .error e →
      ∃ t last, (reportSpaces c p a spaces).2 = t ++ [last] ∧ callFails c p e last := by
  induction spaces with
  | nil => intro h; simp [reportSpaces] at h
  | cons s rest ih =>
    intro h
    cases hs : c.report s p with
    | error e' =>
      have he : e' = e := by simpa [reportSpaces, hs] using h
      subst he
      exact ⟨[], UsageCall.reportCall s, by simp [reportSpaces, hs], by simpa [callFails] using hs⟩
    | ok recs =>
      cases hrec : reportSpaces c p a rest with
      | mk r t =>
        cases r with
        | error e₂ =>
          have he : e₂ = e := by simpa [reportSpaces, hs, hrec] using h
          subst he
          rcases ih (by rw [hrec]) with ⟨t', last, ht, hf⟩
          rw [hrec] at ht
          simp only at ht
          refine ⟨UsageCall.reportCall s :: t', last, ?_, hf⟩
          simp [reportSpaces, hs, hrec, ht]
        | ok l => simp [reportSpaces, hs, hrec] at h

theorem reportEntries_error_last (c : UsageClient) (p : Period) (a : String)
    (entries : List (List String)) (e : String) :
    (reportEntries c p a entries).1 = .error e →
      ∃ t last, (reportEntries c p a entries).2 = t ++ [last] ∧ callFails c p e last := by
  induction entries with
  | nil => intro h; simp [reportEntries] at h
  | cons spaces rest ih =>
    intro h
    cases h1 : reportSpaces c p a spaces with
    | mk r t =>
      cases r with
      | error e₂ =>
        have he : e₂ = e := by simpa [reportEntries, h1] using h
        subst he
        rcases reportSpaces_error_last c p a spaces e₂ (by rw [h1]) with ⟨t', last, ht, hf⟩
        rw [h1] at ht
        simp only at ht
        refine ⟨t', last, ?_, hf⟩
        simp [reportEntries, h1, ht]
      | ok l =>
        cases h2 : reportEntries c p a rest with
        | mk r₂ t₂ =>
          cases r₂ with
          | error e₃ =>
            have he : e₃ = e := by simpa [reportEntries, h1, h2] using h
            subst he
            rcases ih (by rw [h2]) with ⟨t', last, ht, hf⟩
            rw [h2] at ht
            simp only at ht
            refine ⟨t ++ t', last, ?_, hf⟩
            simp [reportEntries, h1, h2, ht]
          | ok l₂ => simp [reportEntries, h1, h2] at h

theorem reportAccounts_error_last (c : UsageClient) (p : Period)
    (accts : List String) (e : String) :
    (reportAccounts c p accts).1 = .error e →
      ∃ t last, (reportAccounts c p accts).2 = t ++ [last] ∧ callFails c p e last := by
  induction accts with
  | nil => intro h; simp [reportAccounts] at h
  | cons a rest ih =>
    intro h
    cases hs : c.subs a with
    | error e' =>
      have he : e' = e := by simpa [reportAccounts, hs] using h
      subst he
      exact ⟨[], UsageCall.subsCall a, by simp [reportAccounts, hs], by simpa [callFails] using hs⟩
    | ok entries =>
      cases h2 : reportEntries c p a entries with
      | mk r t =>
        cases r with
        | error e₂ =>
          have he : e₂ = e := by simpa [reportAccounts, hs, h2] using h
          subst he
          rcases reportEntries_error_last c p a entries e₂ (by rw [h2]) with ⟨t', last, ht, hf⟩
          rw [h2] at ht
          simp only at ht
          refine ⟨UsageCall.subsCall a :: t', last, ?_, hf⟩
          simp [reportAccounts, hs, h2, ht]
        | ok l =>
          cases h3 : reportAccounts c p rest with
          | mk r₂ t₂ =>
            cases r₂ with
            | error e₃ =>
              have he : e₃ = e := by simpa [reportAccounts, hs, h2, h3] using h
              subst he
              rcases ih (by rw [h3]) with ⟨t', last, ht, hf⟩
              rw [h3] at ht
              simp only at ht
              refine ⟨UsageCall.subsCall a :: (t ++ t'), last, ?_, hf⟩
              simp [reportAccounts, hs, h2, h3, ht]
            | ok l₂ => simp [reportAccounts, hs, h2, h3] at h

theorem reportSpaces_mem_fails (c : UsageClient) (p : Period) (a : String)
    (spaces : List String) (e : String) (call : UsageCall) :
    call ∈ (reportSpaces c p a spaces).2 → callFails c p e call →
    (reportSpaces c p a spaces).1 = .error e := by
  induction spaces with
  | nil => intro hmem _; simp [reportSpaces] at hmem
  | cons s rest ih =>
    intro hmem hf
    cases hs : c.report s p with
    | error e' =>
      have hc : call = UsageCall.reportCall s := by simpa [reportSpaces, hs] using hmem
      subst hc
      have hcf : c.report s p = .error e := by simpa [callFails] using hf
      rw [hs] at hcf
      have he : e' = e := by simpa using hcf
      subst he
      simp [reportSpaces, hs]
    | ok recs =>
      cases hrec : reportSpaces c p a rest with
      | mk r t =>
        cases r with
        | error e₂ =>
          have hmem' : call = UsageCall.reportCall s ∨ call ∈ t := by
            simpa [reportSpaces, hs, hrec] using hmem
          rcases hmem' with rfl | hcall
          · have hcf : c.report s p = .error e := by simpa [callFails] using hf
            rw [hs] at hcf
            exact absurd hcf (by simp)
          · have h1 := ih (by rw [hrec]; exact hcall) hf
            rw [hrec] at h1
            simp only at h1
            simpa [reportSpaces, hs, hrec] using h1
        | ok l =>
          have hmem' : call = UsageCall.reportCall s ∨ call ∈ t := by
            simpa [reportSpaces, hs, hrec] using hmem
          rcases hmem' with rfl | hcall
          · have hcf : c.report s p = .error e := by simpa [callFails] using hf
            rw [hs] at hcf
            exact absurd hcf (by simp)
          · have h1 := ih (by rw [hrec]; exact hcall) hf
            rw [hrec] at h1
            simp only at h1
            exact absurd h1 (by simp)

theorem reportEntries_mem_fails (c : UsageClient) (p : Period) (a : String)
    (entries : List (List String)) (e : String) (call : UsageCall) :
    call ∈ (reportEntries c p a entries).2 → callFails c p e call →
    (reportEntries c p a entries).1 = .error e := by
  induction entries with
  | nil => intro hmem _; simp [reportEntries] at hmem
  | cons spaces rest ih =>
    intro hmem hf
    cases h1 : reportSpaces c p a spaces with
    | mk r t =>
      cases r with
      | error e₂ =>
        have hcall : call ∈ t := by simpa [reportEntries, h1] using hmem
        have h2 := reportSpaces_mem_fails c p a spaces e call (by rw [h1]; exact hcall) hf
        rw [h1] at h2
        simp only at h2
        simpa [reportEntries, h1] using h2
      | ok l =>
        cases h2 : reportEntries c p a rest with
        | mk r₂ t₂ =>
          cases r₂ with
          | error e₃ =>
            have hmem' : call ∈ t ∨ call ∈ t₂ := by
              simpa [reportEntries, h1, h2] using hmem
            rcases hmem' with hcall | hcall
            · have h3 := reportSpaces_mem_fails c p a spaces e call (by rw [h1]; exact hcall) hf
              rw [h1] at h3
              simp only at h3
              exact absurd h3 (by simp)
            · have h3 := ih (by rw [h2]; exact hcall) hf
              rw [h2] at h3
              simp only at h3
              have he : e₃ = e := by simpa using h3
              subst he
              simp [reportEntries, h1, h2]
          | ok l₂ =>
            have hmem' : call ∈ t ∨ call ∈ t₂ := by
              simpa [reportEntries, h1, h2] using hmem
            rcases hmem' with hcall | hcall
            · have h3 := reportSpaces_mem_fails c p a spaces e call (by rw [h1]; exact hcall) hf
              rw [h1] at h3
              simp only at h3
              exact absurd h3 (by simp)
            · have h3 := ih (by rw [h2]; exact hcall) hf
              rw [h2] at h3
              simp only at h3
              exact absurd h3 (by simp)

theorem reportAccounts_mem_fails (c : UsageClient) (p : Period)
    (accts : List String) (e : String) (call : UsageCall) :
    call ∈ (reportAccounts c p accts).2 → callFails c p e call →
    (reportAccounts c p accts).1 = .error e := by
  induction accts with
  | nil => intro hmem _; simp [reportAccounts] at hmem
  | cons a rest ih =>
    intro hmem hf
    cases hs : c.subs a with
    | error e' =>
      have hc : call = UsageCall.subsCall a := by simpa [reportAccounts, hs] using hmem
      subst hc
      have hcf : c.subs a = .error e := by simpa [callFails] using hf
      rw [hs] at hcf
      have he : e' = e := by simpa using hcf
      subst he
      simp [reportAccounts, hs]
    | ok entries =>
      cases h2 : reportEntries c p a entries with
      | mk r t =>
        cases r with
        | error e₂ =>
          have hmem' : call = UsageCall.subsCall a ∨ call ∈ t := by
            simpa [reportAccounts, hs, h2] using hmem
          rcases hmem' with rfl | hcall
          · have hcf : c.subs a = .error e := by simpa [callFails] using hf
            rw [hs] at hcf
            exact absurd hcf (by simp)
          · have h3 := reportEntries_mem_fails c p a entries e call (by rw [h2]; exact hcall) hf
            rw [h2] at h3
            simp only at h3
            have he : e₂ = e := by simpa using h3
            subst he
            simp [reportAccounts, hs, h2]
        | ok l =>
          cases h3 : reportAccounts c p rest with
          | mk r₂ t₂ =>
            cases r₂ with
            | error e₃ =>
              have hmem' : call = UsageCall.subsCall a ∨ call ∈ t ∨ call ∈ t₂ := by
                simpa [reportAccounts, hs, h2, h3] using hmem
              rcases hmem' with rfl | hcall | hcall
              · have hcf : c.subs a = .error e := by simpa [callFails] using hf
                rw [hs] at hcf
                exact absurd hcf (by simp)
              · have h4 := reportEntries_mem_fails c p a entries e call (by rw [h2]; exact hcall) hf
                rw [h2] at h4
                simp only at h4
                exact absurd h4 (by simp)
              · have h4 := ih (by rw [h3]; exact hcall) hf
                rw [h3] at h4
                simp only at h4
                have he : e₃ = e := by simpa using h4
                subst he
                simp [reportAccounts, hs, h2, h3]
            | ok l₂ =>
              have hmem' : call = UsageCall.subsCall a ∨ call ∈ t ∨ call ∈ t₂ := by
                simpa [reportAccounts, hs, h2, h3] using hmem
              rcases hmem' with rfl | hcall | hcall
              · have hcf : c.subs a = .error e := by simpa [callFails] using hf
                rw [hs] at hcf
                exact absurd hcf (by simp)
              · have h4 := reportEntries_mem_fails c p a entries e call (by rw [h2]; exact hcall) hf
                rw [h2] at h4
                simp only at h4
                exact absurd h4 (by simp)
              · have h4 := ih (by rw [h3]; exact hcall) hf
                rw [h3] at h4
                simp only at h4
                exact absurd h4 (by simp)

/-- C5: the usage traversal is fail-fast.  If `getSpaceUsageReports`
aborts with an error, the last call in its trace is the failing
subscription fetch or usage-report fetch (nothing — no sibling account,
subscription entry or space — is visited after it), and conversely any
failing call that the traversal issues makes the whole traversal abort
with that call's error. -/
theorem c5_fail_fast (c : UsageClient) (p : Period) (e : String) :
    ((getSpaceUsageReports c p).1 = .error e →
      ∃ t last, (getSpaceUsageReports c p).2 = t ++ [last] ∧ callFails c p e last) ∧
    (∀ call ∈ (getSpaceUsageReports c p).2, callFails c p e call →
      (getSpaceUsageReports c p).1 = .error e) := by
  exact ⟨fun h => reportAccounts_error_last c p c.accounts e h,
    fun call hmem hf => reportAccounts_mem_fails c p c.accounts e call hmem hf⟩

/-- A client whose only account has a failing subscription fetch. -/
def usageClientFail : UsageClient where
  accounts := ["a1"]
  subs := fun _ => .error "boom"
  report := fun _ _ => .ok []

theorem c5_fail_fast_witness :
    (∃ t last, (getSpaceUsageReports usageClientFail ⟨0, 1⟩).2 = t ++ [last] ∧
      callFails usageClientFail ⟨0, 1⟩ "boom" last) ∧
    (getSpaceUsageReports usageClientFail ⟨0, 1⟩).1 = .error "boom" :=
  ⟨(c5_fail_fast usageClientFail ⟨0, 1⟩ "boom").1 rfl,
    (c5_fail_fast usageClientFail ⟨0, 1⟩ "boom").2 (UsageCall.subsCall "a1")
      (by simp [getSpaceUsageReports, reportAccounts, usageClientFail]) rfl⟩

end W3
